import Mathlib

/-!
Verification of the LQR path-following controller
(`src/core/local_planner/lqr_planner/include/lqr_planner.h`).

The repository ships only the header of `lqr_planner::LQRPlanner`; the
member-function bodies are not part of the source tree.  Each component is
therefore modelled from the specification (sections 3, 4, 7 and 8 of the
design document), keeping the member and method names of the header where
Lean allows it.  Floating-point numbers are modelled as rationals; the
irrational numeric primitives of the implementation (the Euclidean norm
`hypot`, `sin`/`cos`, `atan2`, and the linearized-model matrices, whose
entries the specification does not give) are modelled as explicit oracle
parameters, so every definition stays executable.
-/

namespace LQR

/-- 3x3 rational matrix (state-cost / Riccati matrices). -/
abbrev M3 := Matrix (Fin 3) (Fin 3) ℚ

/-- 2x2 rational matrix (control-cost matrix `R`). -/
abbrev M2 := Matrix (Fin 2) (Fin 2) ℚ

/-- 3x2 rational matrix (input matrix `B`). -/
abbrev M32 := Matrix (Fin 3) (Fin 2) ℚ

/-- 2x3 rational matrix (feedback gain `K`). -/
abbrev M23 := Matrix (Fin 2) (Fin 3) ℚ

/-- Modelled from the spec (§3): a pose `{x, y, heading}` in the shared
global frame; the header stores poses as `geometry_msgs::PoseStamped`. -/
structure Pose where
  x : ℚ
  y : ℚ
  heading : ℚ
deriving DecidableEq, Repr

/-- A plain 2-D point, used while walking the path. -/
structure Pt where
  x : ℚ
  y : ℚ
deriving DecidableEq, Repr

/-- A 3-D point, the payload of `geometry_msgs::PointStamped`. -/
structure Point3 where
  x : ℚ
  y : ℚ
  z : ℚ
deriving DecidableEq, Repr

/-- `geometry_msgs::PointStamped`, the return type of
`LQRPlanner::_getLookAheadPoint` in the header: a stamped 3-D point.  It
carries a header (stamp and frame id) and a position, and no
orientation/heading component. -/
structure PointStamped where
  stamp : ℚ
  frame : String
  point : Point3
deriving DecidableEq, Repr

/-- Modelled from the spec (§7): the error kinds of the controller. -/
inductive ControlError where
  | NoPathError
  | EmptyPathError
  | SingularGainError
deriving DecidableEq, Repr

/-- Modelled from the spec (§4.3): the value returned by the Riccati solver,
`(P, K, iterations, converged)`. -/
structure RiccatiResult where
  P : M3
  K : M23
  iterations : ℕ
  converged : Bool
deriving DecidableEq

/-- Modelled from the spec (§4.6 and §6) and the private members of the
header (`lookahead_time_`, `min_lookahead_dist_`, `max_lookahead_dist_`,
`d_t_`, `Q_`, `R_`, `max_iter_`, `eps_iter_`, goal tolerances): the static
configuration of the controller.  `max_trail_radius_` is the maximum
trailing radius of §4.1; `two_pi_` is the rational stand-in for `2π` used
by angle wrapping. -/
structure Config where
  lookahead_time_ : ℚ
  min_lookahead_dist_ : ℚ
  max_lookahead_dist_ : ℚ
  d_t_ : ℚ
  Q_ : M3
  R_ : M2
  max_iter_ : ℕ
  eps_iter_ : ℚ
  goal_dist_tol_ : ℚ
  goal_heading_tol_ : ℚ
  max_trail_radius_ : ℚ
  two_pi_ : ℚ

/-- Modelled from the spec: the numeric primitives of the implementation
that have no exact rational counterpart, kept abstract so that every
definition below is executable.  `hyp a b` models `hypot` (the straight-line
length of the displacement `(a, b)`); `cos`/`sin`/`atan2` model the trig
calls of the error-state model; `model dt v heading` models the
linearized-model matrices `(A, B)` of §3, a "function of cycle time and
current reference velocity/heading" whose entries the specification does
not give. -/
structure Oracles where
  hyp : ℚ → ℚ → ℚ
  cos : ℚ → ℚ
  sin : ℚ → ℚ
  atan2 : ℚ → ℚ → ℚ
  model : ℚ → ℚ → ℚ → M3 × M32

/-- Modelled from the spec (§4.6): the mutable controller state grouped in
one value — the stored path (`global_plan_` of the header, `none` before any
plan is set), the pruning cursor, and the goal flag (`goal_reached_`). -/
structure ControllerState where
  plan : Option (List Pose)
  cursor : ℕ
  goalReached : Bool
deriving DecidableEq, Repr

/-- The controller state before any plan has been set. -/
def initialState : ControllerState :=
  { plan := none, cursor := 0, goalReached := false }

/-! ## RiccatiSolver (spec §4.3; body of `LQRPlanner::_lqrControl` missing) -/

/-- Determinant of a 2x2 matrix. -/
def det2 (M : M2) : ℚ :=
  M 0 0 * M 1 1 - M 0 1 * M 1 0

/-- Inverse of a 2x2 matrix by the adjugate formula (the meaning of
Eigen's `.inverse()` on a nonsingular 2x2 matrix). -/
def inv2 (M : M2) : M2 :=
  (det2 M)⁻¹ • !![M 1 1, -(M 0 1); -(M 1 0), M 0 0]

/-- Max-absolute-element norm of a 3x3 matrix. -/
def maxAbs3 (M : M3) : ℚ :=
  max (max (max (max |M 0 0| |M 0 1|) (max |M 0 2| |M 1 0|))
      (max (max |M 1 1| |M 1 2|) (max |M 2 0| |M 2 1|))) |M 2 2|

/-- Modelled from the spec (§4.3): one step of the discrete algebraic
Riccati recurrence,
`P' = Q + Aᵗ·P·A − Aᵗ·P·B·(R + Bᵗ·P·B)⁻¹·Bᵗ·P·A`. -/
def riccatiStep (A : M3) (B : M32) (Q : M3) (R : M2) (P : M3) : M3 :=
  Q + A.transpose * P * A -
    A.transpose * P * B * inv2 (R + B.transpose * P * B) * (B.transpose * P * A)

/-- Modelled from the spec (§4.3): the fixed-point iteration, with the
remaining iteration budget as fuel.  Each step first checks the inner
matrix `R + Bᵗ·P·B` for singularity (the `SingularGainError` case of
§4.3), then computes `P'` and compares `‖P' − P‖` against `eps`; the
returned number counts the steps taken inside this call. -/
def riccatiIter (A : M3) (B : M32) (Q : M3) (R : M2) (eps : ℚ) :
    ℕ → M3 → Except ControlError (M3 × ℕ × Bool)
  | 0, P => .ok (P, 0, false)
  | fuel + 1, P =>
    if det2 (R + B.transpose * P * B) = 0 then .error .SingularGainError
    else if maxAbs3 (riccatiStep A B Q R P - P) < eps then
      .ok (riccatiStep A B Q R P, 1, true)
    else
      match riccatiIter A B Q R eps fuel (riccatiStep A B Q R P) with
      | .error e => .error e
      | .ok (Pf, n, c) => .ok (Pf, n + 1, c)

/-- Modelled from the spec (§4.3):
`solve(A, B, Q, R, maxIter, eps) -> (P, K, iterations, converged)` —
iterate from `P₀ = Q`, then compute the gain
`K = (R + Bᵗ·P·B)⁻¹·Bᵗ·P·A` once from the final `P`, failing with
`SingularGainError` when the inner matrix is singular. -/
def riccatiSolve (A : M3) (B : M32) (Q : M3) (R : M2) (maxIter : ℕ) (eps : ℚ) :
    Except ControlError RiccatiResult :=
  match riccatiIter A B Q R eps maxIter Q with
  | .error e => .error e
  | .ok (P, n, c) =>
    if det2 (R + B.transpose * P * B) = 0 then .error .SingularGainError
    else .ok ⟨P, inv2 (R + B.transpose * P * B) * (B.transpose * P * A), n, c⟩

/-- The epsilon criterion of the iteration started at `P`, seen at step
`j`: the distance between the `j+1`-st and the `j`-th iterate is below
`eps`. -/
abbrev dareCrit (A : M3) (B : M32) (Q : M3) (R : M2) (eps : ℚ) (P : M3) (j : ℕ) : Prop :=
  maxAbs3 ((riccatiStep A B Q R)^[j + 1] P - (riccatiStep A B Q R)^[j] P) < eps

/-! ## ControlLaw (spec §4.4) -/

/-- A control vector `[v, ω]`. -/
abbrev ControlVector := Fin 2 → ℚ

/-- Modelled from the spec (§4.4): `evaluate(K, error) = −K·error`, with no
clamping. -/
def controlLaw (K : M23) (e : Fin 3 → ℚ) : ControlVector :=
  -(K.mulVec e)

/-! ## PathTracker (spec §4.1; bodies of `LQRPlanner::_prune`,
`_getLookAheadDistance` and `_getLookAheadPoint` missing) -/

/-- Modelled from the spec (§4.1): the speed-dependent lookahead distance
`clamp(lookaheadTimeGain * speed, minDist, maxDist)` of
`_getLookAheadDistance`. -/
def getLookAheadDistance (cfg : Config) (vt : ℚ) : ℚ :=
  min (max (cfg.lookahead_time_ * vt) cfg.min_lookahead_dist_) cfg.max_lookahead_dist_

/-- Modelled from the spec (§4.1): a leading waypoint `p` is discarded when
its distance to the current pose is less than the distance from the pose to
the next waypoint `q` (already passed), or when it lies farther than the
maximum trailing radius from the agent. -/
def shouldDrop (o : Oracles) (cfg : Config) (pose p q : Pose) : Bool :=
  decide (o.hyp (p.x - pose.x) (p.y - pose.y) < o.hyp (q.x - pose.x) (q.y - pose.y)) ||
  decide (cfg.max_trail_radius_ < o.hyp (p.x - pose.x) (p.y - pose.y))

/-- Modelled from the spec (§4.1): how many leading waypoints of the given
suffix `_prune` discards; it never touches the final waypoint. -/
def pruneAdvance (o : Oracles) (cfg : Config) (pose : Pose) : List Pose → ℕ
  | [] => 0
  | [_] => 0
  | p :: q :: rest =>
    if shouldDrop o cfg pose p q then pruneAdvance o cfg pose (q :: rest) + 1 else 0

/-- Modelled from the spec (§3 and §4.1): the pruning cursor after one
`_prune` call — the stored cursor advanced past the discarded waypoints
(monotonic forward progress, the cursor never moves backward). -/
def pruneCursor (o : Oracles) (cfg : Config) (pose : Pose) (path : List Pose) (c : ℕ) : ℕ :=
  c + pruneAdvance o cfg pose (path.drop c)

/-- Modelled from the spec (§3): the pruned path returned by `_prune`, the
suffix of the stored path starting at the advanced cursor. -/
def prunedOf (o : Oracles) (cfg : Config) (pose : Pose) (path : List Pose) (c : ℕ) : List Pose :=
  path.drop (pruneCursor o cfg pose path c)

/-- Linear interpolation between two points. -/
def interp (a b : Pt) (t : ℚ) : Pt :=
  ⟨a.x + t * (b.x - a.x), a.y + t * (b.y - a.y)⟩

/-- Modelled from the spec (§4.1): the arc-length walk of
`_getLookAheadPoint` — consume the remaining distance segment by segment;
on the segment where the accumulated length first reaches the target,
return the linearly interpolated point; past the end of the path, return
the final point. -/
def walkPath (hyp : ℚ → ℚ → ℚ) : ℚ → Pt → List Pt → Pt
  | _, cur, [] => cur
  | d, cur, p :: rest =>
    if d ≤ hyp (p.x - cur.x) (p.y - cur.y) then
      interp cur p (d / hyp (p.x - cur.x) (p.y - cur.y))
    else walkPath hyp (d - hyp (p.x - cur.x) (p.y - cur.y)) p rest

/-- Total polyline length from a start point through a list of points. -/
def polyLen (hyp : ℚ → ℚ → ℚ) : Pt → List Pt → ℚ
  | _, [] => 0
  | cur, p :: rest => hyp (p.x - cur.x) (p.y - cur.y) + polyLen hyp p rest

/-- The last point of `start :: pts`. -/
def lastPt : Pt → List Pt → Pt
  | c, [] => c
  | _, p :: rest => lastPt p rest

/-- The 2-D position of a pose. -/
def ptOfPose (p : Pose) : Pt :=
  ⟨p.x, p.y⟩

/-- Modelled from the spec (§4.1): `_getLookAheadPoint` walks the pruned
plan from the agent's position and returns the found position as a
`geometry_msgs::PointStamped` (the return type declared in the header) — a
stamped point with no orientation component. -/
def getLookAheadPoint (o : Oracles) (lookaheadDist : ℚ) (robot : Pose)
    (prunePlan : List Pose) : PointStamped :=
  let w := walkPath o.hyp lookaheadDist ⟨robot.x, robot.y⟩ (prunePlan.map ptOfPose)
  { stamp := 0, frame := "map", point := ⟨w.x, w.y, 0⟩ }

/-! ## ErrorStateModel (spec §4.2) -/

/-- Modelled from the spec (§4.5): wrap an angle to `(−π, π]`, with `2π`
passed as its rational stand-in. -/
def wrapAngle (twoPi θ : ℚ) : ℚ :=
  θ - twoPi * (round (θ / twoPi) : ℤ)

/-- Modelled from the spec (§4.2): translate `reference − currentPose` into
the agent's local frame by rotation with `−currentPose.heading`; the heading
error is the wrapped signed angular difference. -/
def computeError (o : Oracles) (twoPi : ℚ) (pose ref : Pose) : Fin 3 → ℚ :=
  ![o.cos pose.heading * (ref.x - pose.x) + o.sin pose.heading * (ref.y - pose.y),
    -(o.sin pose.heading) * (ref.x - pose.x) + o.cos pose.heading * (ref.y - pose.y),
    wrapAngle twoPi (ref.heading - pose.heading)]

/-! ## GoalMonitor (spec §4.5; body of `LQRPlanner::isGoalReached` missing) -/

/-- Modelled from the spec (§4.5): one goal-monitor update — `Reached`
(`true`) is entered when the distance to the goal and the wrapped heading
difference are simultaneously within tolerance, and is never left. -/
def goalUpdate (cfg : Config) (o : Oracles) (pose goal : Pose) (reached : Bool) : Bool :=
  reached ||
    (decide (o.hyp (goal.x - pose.x) (goal.y - pose.y) < cfg.goal_dist_tol_) &&
     decide (|wrapAngle cfg.two_pi_ (pose.heading - goal.heading)| < cfg.goal_heading_tol_))

/-- `LQRPlanner::isGoalReached`, reading the `goal_reached_` flag. -/
def isGoalReached (st : ControllerState) : Bool :=
  st.goalReached

/-! ## Controller orchestration (spec §4.6; bodies of `LQRPlanner::setPlan`
and `computeVelocityCommands` missing) -/

/-- Modelled from the spec (§4.1 and §8): `setPlan` rejects an empty plan
with `EmptyPathError` and leaves the state untouched; otherwise it stores
the plan, resets the pruning cursor and clears the `Reached` state. -/
def setPlan (st : ControllerState) (plan : List Pose) :
    (Except ControlError Unit) × ControllerState :=
  if plan.isEmpty then (.error .EmptyPathError, st)
  else (.ok (), { plan := some plan, cursor := 0, goalReached := false })

/-- The lookahead point chosen for one cycle. -/
def cycleLookahead (cfg : Config) (o : Oracles) (pose : Pose) (speed : ℚ)
    (pruned : List Pose) : PointStamped :=
  getLookAheadPoint o (getLookAheadDistance cfg speed) pose pruned

/-- Modelled from the spec (§9, open question): the reference heading of
the cycle, computed from the direction toward the lookahead point (the
lookahead point itself carries no heading). -/
def cycleRefHeading (cfg : Config) (o : Oracles) (pose : Pose) (speed : ℚ)
    (pruned : List Pose) : ℚ :=
  o.atan2 ((cycleLookahead cfg o pose speed pruned).point.y - pose.y)
    ((cycleLookahead cfg o pose speed pruned).point.x - pose.x)

/-- The error state of one cycle, relative to the lookahead reference. -/
def cycleError (cfg : Config) (o : Oracles) (pose : Pose) (speed : ℚ)
    (pruned : List Pose) : Fin 3 → ℚ :=
  computeError o cfg.two_pi_ pose
    ⟨(cycleLookahead cfg o pose speed pruned).point.x,
     (cycleLookahead cfg o pose speed pruned).point.y,
     cycleRefHeading cfg o pose speed pruned⟩

/-- The Riccati solve of one cycle, on the linearized model at the current
reference. -/
def cycleRiccati (cfg : Config) (o : Oracles) (pose : Pose) (speed : ℚ)
    (pruned : List Pose) : Except ControlError RiccatiResult :=
  riccatiSolve (o.model cfg.d_t_ speed (cycleRefHeading cfg o pose speed pruned)).1
    (o.model cfg.d_t_ speed (cycleRefHeading cfg o pose speed pruned)).2
    cfg.Q_ cfg.R_ cfg.max_iter_ cfg.eps_iter_

/-- Modelled from the spec (§4.6): `computeVelocityCommands` runs one
control cycle — prune, lookahead, error state, Riccati solve, control law,
goal-monitor update — returning `NoPathError` before any plan is set,
`EmptyPathError` when pruning leaves nothing, and propagating
`SingularGainError` from the solver; every failure is an explicit result
value. -/
def computeVelocityCommands (cfg : Config) (o : Oracles) (st : ControllerState)
    (pose : Pose) (speed : ℚ) :
    Except ControlError (ControlVector × ControllerState) :=
  match st.plan with
  | none => .error .NoPathError
  | some path =>
    match prunedOf o cfg pose path st.cursor with
    | [] => .error .EmptyPathError
    | hd :: tl =>
      match cycleRiccati cfg o pose speed (hd :: tl) with
      | .error e => .error e
      | .ok res =>
        .ok (controlLaw res.K (cycleError cfg o pose speed (hd :: tl)),
          { plan := some path,
            cursor := pruneCursor o cfg pose path st.cursor,
            goalReached := goalUpdate cfg o pose (List.getLastD tl hd) st.goalReached })

/-- A run of successive control cycles: on a successful cycle the state is
replaced, on a failed cycle it is kept. -/
def runCycles (cfg : Config) (o : Oracles) :
    List (Pose × ℚ) → ControllerState → ControllerState
  | [], st => st
  | pv :: rest, st =>
    runCycles cfg o rest
      (match computeVelocityCommands cfg o st pv.1 pv.2 with
       | .ok r => r.2
       | .error _ => st)

/-! ## Concrete fixtures used by the witness theorems -/

/-- A concrete oracle instance: squared-Euclidean segment length (which is
nonnegative, as the real `hypot` is), trivial trig and a zero linearized
model. -/
def o₀ : Oracles :=
  { hyp := fun a b => a * a + b * b, cos := fun _ => 1, sin := fun _ => 0,
    atan2 := fun _ _ => 0, model := fun _ _ _ => (0, 0) }

/-- A concrete configuration instance. -/
def cfg₀ : Config :=
  { lookahead_time_ := 1, min_lookahead_dist_ := 1, max_lookahead_dist_ := 1,
    d_t_ := 1, Q_ := 0, R_ := 1, max_iter_ := 5, eps_iter_ := 1,
    goal_dist_tol_ := 2, goal_heading_tol_ := 1, max_trail_radius_ := 1, two_pi_ := 1 }

/-- A concrete configuration instance whose control-cost matrix is singular,
so the Riccati solve fails. -/
def cfgSing : Config :=
  { lookahead_time_ := 1, min_lookahead_dist_ := 1, max_lookahead_dist_ := 1,
    d_t_ := 1, Q_ := 0, R_ := 0, max_iter_ := 0, eps_iter_ := 1,
    goal_dist_tol_ := 2, goal_heading_tol_ := 1, max_trail_radius_ := 1, two_pi_ := 1 }

/-! # Theorems -/

lemma riccatiIter_ok (A : M3) (B : M32) (Q : M3) (R : M2) (eps : ℚ) :
    ∀ (fuel : ℕ) (P Pf : M3) (n : ℕ) (c : Bool),
      riccatiIter A B Q R eps fuel P = .ok (Pf, n, c) →
      Pf = (riccatiStep A B Q R)^[n] P ∧ n ≤ fuel ∧
      (c = true → 0 < n ∧
        maxAbs3 ((riccatiStep A B Q R)^[n] P - (riccatiStep A B Q R)^[n - 1] P) < eps ∧
        ∀ j, j + 1 < n →
          ¬ maxAbs3 ((riccatiStep A B Q R)^[j + 1] P - (riccatiStep A B Q R)^[j] P) < eps) ∧
      (c = false → n = fuel ∧
        ∀ j, j < fuel →
          ¬ maxAbs3 ((riccatiStep A B Q R)^[j + 1] P - (riccatiStep A B Q R)^[j] P) < eps) := by
  intro fuel
  induction fuel with
  | zero =>
    intro P Pf n c h
    simp only [riccatiIter, Except.ok.injEq, Prod.mk.injEq] at h
    obtain ⟨h1, h2, h3⟩ := h
    subst h1; subst h2; subst h3
    exact ⟨by simp, le_refl 0, by simp, fun _ => ⟨rfl, fun j hj => absurd hj (by omega)⟩⟩
  | succ fuel ih =>
    intro P Pf n c h
    rw [riccatiIter] at h
    by_cases hdet : det2 (R + B.transpose * P * B) = 0
    · rw [if_pos hdet] at h
      exact Except.noConfusion h
    · rw [if_neg hdet] at h
      by_cases hcrit : maxAbs3 (riccatiStep A B Q R P - P) < eps
      · rw [if_pos hcrit] at h
        simp only [Except.ok.injEq, Prod.mk.injEq] at h
        obtain ⟨h1, h2, h3⟩ := h
        subst h1; subst h2; subst h3
        refine ⟨by rw [Function.iterate_one], by omega, fun _ => ⟨by omega, ?_,
          fun j hj => absurd hj (by omega)⟩, by simp⟩
        rw [show (1:ℕ) - 1 = 0 from rfl, Function.iterate_one, Function.iterate_zero_apply]
        exact hcrit
      · rw [if_neg hcrit] at h
        cases hrec : riccatiIter A B Q R eps fuel (riccatiStep A B Q R P) with
        | error e =>
          rw [hrec] at h
          exact Except.noConfusion h
        | ok t =>
          obtain ⟨P₂, m, c₂⟩ := t
          rw [hrec] at h
          simp only [Except.ok.injEq, Prod.mk.injEq] at h
          obtain ⟨h1, h2, h3⟩ := h
          subst h1; subst h2; subst h3
          obtain ⟨ihP, ihle, ihtrue, ihfalse⟩ := ih (riccatiStep A B Q R P) P₂ m c₂ hrec
          refine ⟨by rw [Function.iterate_succ_apply]; exact ihP, by omega, ?_, ?_⟩
          · intro hc
            obtain ⟨hm, hcr, hmin⟩ := ihtrue hc
            obtain ⟨m', rfl⟩ : ∃ m', m = m' + 1 := ⟨m - 1, by omega⟩
            refine ⟨by omega, ?_, ?_⟩
            · show maxAbs3 ((riccatiStep A B Q R)^[m' + 1 + 1] P -
                  (riccatiStep A B Q R)^[m' + 1 + 1 - 1] P) < eps
              rw [show m' + 1 + 1 - 1 = m' + 1 from rfl,
                Function.iterate_succ_apply (f := riccatiStep A B Q R) (n := m' + 1) (x := P),
                Function.iterate_succ_apply (f := riccatiStep A B Q R) (n := m') (x := P)]
              exact hcr
            · intro j hj
              match j with
              | 0 =>
                rw [show (0:ℕ) + 1 = 1 from rfl, Function.iterate_one,
                  Function.iterate_zero_apply]
                exact hcrit
              | k + 1 =>
                have hk := hmin k (by omega)
                rw [Function.iterate_succ_apply (f := riccatiStep A B Q R) (n := k + 1) (x := P),
                  Function.iterate_succ_apply (f := riccatiStep A B Q R) (n := k) (x := P)]
                exact hk
          · intro hc
            obtain ⟨hm, hmin⟩ := ihfalse hc
            refine ⟨by omega, ?_⟩
            intro j hj
            match j with
            | 0 =>
              rw [show (0:ℕ) + 1 = 1 from rfl, Function.iterate_one,
                Function.iterate_zero_apply]
              exact hcrit
            | k + 1 =>
              have hk := hmin k (by omega)
              rw [Function.iterate_succ_apply (f := riccatiStep A B Q R) (n := k + 1) (x := P),
                Function.iterate_succ_apply (f := riccatiStep A B Q R) (n := k) (x := P)]
              exact hk

lemma riccatiIter_error (A : M3) (B : M32) (Q : M3) (R : M2) (eps : ℚ) :
    ∀ (fuel : ℕ) (P : M3) (e : ControlError),
      riccatiIter A B Q R eps fuel P = .error e → e = .SingularGainError := by
  intro fuel
  induction fuel with
  | zero =>
    intro P e h
    exact Except.noConfusion h
  | succ fuel ih =>
    intro P e h
    rw [riccatiIter] at h
    by_cases hdet : det2 (R + B.transpose * P * B) = 0
    · rw [if_pos hdet] at h
      exact (Except.error.injEq _ _ ▸ h).symm
    · rw [if_neg hdet] at h
      by_cases hcrit : maxAbs3 (riccatiStep A B Q R P - P) < eps
      · rw [if_pos hcrit] at h
        exact Except.noConfusion h
      · rw [if_neg hcrit] at h
        cases hrec : riccatiIter A B Q R eps fuel (riccatiStep A B Q R P) with
        | error e₂ =>
          rw [hrec] at h
          simp only [Except.error.injEq] at h
          exact h ▸ ih (riccatiStep A B Q R P) e₂ hrec
        | ok t =>
          obtain ⟨P₂, m, c₂⟩ := t
          rw [hrec] at h
          exact Except.noConfusion h

lemma riccatiSolve_ok_inv (A : M3) (B : M32) (Q : M3) (R : M2) (maxIter : ℕ) (eps : ℚ)
    (res : RiccatiResult) (h : riccatiSolve A B Q R maxIter eps = .ok res) :
    riccatiIter A B Q R eps maxIter Q = .ok (res.P, res.iterations, res.converged) ∧
    res.K = inv2 (R + B.transpose * res.P * B) * (B.transpose * res.P * A) := by
  unfold riccatiSolve at h
  cases hit : riccatiIter A B Q R eps maxIter Q with
  | error e =>
    rw [hit] at h
    exact Except.noConfusion h
  | ok t =>
    obtain ⟨P, n, c⟩ := t
    rw [hit] at h
    by_cases hdet : det2 (R + B.transpose * P * B) = 0
    · simp only [hdet, if_true] at h
      exact Except.noConfusion h
    · simp only [hdet, if_false, Except.ok.injEq] at h
      subst h
      exact ⟨rfl, rfl⟩

lemma riccatiSolve_error (A : M3) (B : M32) (Q : M3) (R : M2) (maxIter : ℕ) (eps : ℚ)
    (e : ControlError) (h : riccatiSolve A B Q R maxIter eps = .error e) :
    e = .SingularGainError := by
  unfold riccatiSolve at h
  cases hit : riccatiIter A B Q R eps maxIter Q with
  | error e₂ =>
    rw [hit] at h
    simp only [Except.error.injEq] at h
    exact h ▸ riccatiIter_error A B Q R eps maxIter Q e₂ hit
  | ok t =>
    obtain ⟨P, n, c⟩ := t
    rw [hit] at h
    by_cases hdet : det2 (R + B.transpose * P * B) = 0
    · simp only [hdet, if_true, Except.error.injEq] at h
      exact h.symm
    · simp only [hdet, if_false] at h
      exact Except.noConfusion h

/-- C1: the Riccati solve performs fixed-point iteration of the discrete
algebraic Riccati recurrence starting from `P₀ = Q`, computing
`P_{k+1} = Q + Aᵗ·P_k·A − Aᵗ·P_k·B·(R + Bᵗ·P_k·B)⁻¹·Bᵗ·P_k·A` each step
(`riccatiStep`); it stops at the first step at which
`‖P_{k+1} − P_k‖ < eps` in the max-absolute-element norm (no earlier step
satisfied the criterion), or after `maxIter` steps, whichever comes first;
and the returned `converged` flag is `true` only when the epsilon criterion
ended the loop (on `converged = false` every step was taken and no step met
the criterion). -/
theorem riccatiSolve_fixed_point (A : M3) (B : M32) (Q : M3) (R : M2)
    (maxIter : ℕ) (eps : ℚ) (res : RiccatiResult)
    (h : riccatiSolve A B Q R maxIter eps = .ok res) :
    res.P = (riccatiStep A B Q R)^[res.iterations] Q ∧
    res.iterations ≤ maxIter ∧
    (res.converged = true → 0 < res.iterations ∧
      maxAbs3 ((riccatiStep A B Q R)^[res.iterations] Q -
        (riccatiStep A B Q R)^[res.iterations - 1] Q) < eps ∧
      ∀ j, j + 1 < res.iterations →
        ¬ maxAbs3 ((riccatiStep A B Q R)^[j + 1] Q -
            (riccatiStep A B Q R)^[j] Q) < eps) ∧
    (res.converged = false → res.iterations = maxIter ∧
      ∀ j, j < maxIter →
        ¬ maxAbs3 ((riccatiStep A B Q R)^[j + 1] Q -
            (riccatiStep A B Q R)^[j] Q) < eps) := by
  obtain ⟨hiter, _⟩ := riccatiSolve_ok_inv A B Q R maxIter eps res h
  exact riccatiIter_ok A B Q R eps maxIter Q res.P res.iterations res.converged hiter

/-- Witness for C1: a concrete solve that converges after one step. -/
theorem riccatiSolve_fixed_point_witness :
    riccatiSolve 0 0 0 1 5 1 = .ok ⟨0, 0, 1, true⟩ ∧
    (⟨0, 0, 1, true⟩ : RiccatiResult).P =
      (riccatiStep 0 0 0 1)^[(⟨0, 0, 1, true⟩ : RiccatiResult).iterations] 0 ∧
    (⟨0, 0, 1, true⟩ : RiccatiResult).iterations ≤ 5 := by
  have h : riccatiSolve 0 0 0 1 5 1 = .ok ⟨0, 0, 1, true⟩ := by
    simp [riccatiSolve, riccatiIter, riccatiStep, det2, inv2, maxAbs3]
  have hthm := riccatiSolve_fixed_point 0 0 0 1 5 1 ⟨0, 0, 1, true⟩ h
  exact ⟨h, hthm.1, hthm.2.1⟩

/-- C8: the Riccati iteration executes at most `maxIter` steps on every
input; reaching `maxIter` without convergence is not an error — the last
computed `P` (the `maxIter`-th iterate) and the gain `K` derived from that
final `P` are still returned, failures are only the singular-gain kind, and
a successful solve (converged or not) is used by the control cycle, whose
command is the control law applied with the returned gain. -/
theorem riccatiSolve_bounded_and_nonfatal :
    (∀ (A : M3) (B : M32) (Q : M3) (R : M2) (maxIter : ℕ) (eps : ℚ)
      (res : RiccatiResult),
      riccatiSolve A B Q R maxIter eps = .ok res →
        res.iterations ≤ maxIter ∧
        res.K = inv2 (R + B.transpose * res.P * B) * (B.transpose * res.P * A) ∧
        (res.converged = false →
          res.iterations = maxIter ∧ res.P = (riccatiStep A B Q R)^[maxIter] Q)) ∧
    (∀ (A : M3) (B : M32) (Q : M3) (R : M2) (maxIter : ℕ) (eps : ℚ)
      (e : ControlError),
      riccatiSolve A B Q R maxIter eps = .error e → e = .SingularGainError) ∧
    (∀ (cfg : Config) (o : Oracles) (st : ControllerState) (pose : Pose) (speed : ℚ)
      (path : List Pose) (hd : Pose) (tl : List Pose) (res : RiccatiResult),
      st.plan = some path →
      prunedOf o cfg pose path st.cursor = hd :: tl →
      cycleRiccati cfg o pose speed (hd :: tl) = .ok res →
      computeVelocityCommands cfg o st pose speed =
        .ok (controlLaw res.K (cycleError cfg o pose speed (hd :: tl)),
          { plan := some path, cursor := pruneCursor o cfg pose path st.cursor,
            goalReached := goalUpdate cfg o pose (List.getLastD tl hd) st.goalReached })) := by
  refine ⟨?_, ?_, ?_⟩
  · intro A B Q R maxIter eps res h
    obtain ⟨hiter, hK⟩ := riccatiSolve_ok_inv A B Q R maxIter eps res h
    obtain ⟨hP, hle, _, hfalse⟩ :=
      riccatiIter_ok A B Q R eps maxIter Q res.P res.iterations res.converged hiter
    refine ⟨hle, hK, fun hc => ?_⟩
    obtain ⟨hn, _⟩ := hfalse hc
    exact ⟨hn, hn ▸ hP⟩
  · intro A B Q R maxIter eps e h
    exact riccatiSolve_error A B Q R maxIter eps e h
  · intro cfg o st pose speed path hd tl res hplan hpruned hric
    simp only [computeVelocityCommands, hplan, hpruned, hric]

/-- Witness for C8: a concrete solve that hits the zero-iteration cap
without converging and still returns the last `P` and its gain. -/
theorem riccatiSolve_bounded_and_nonfatal_witness :
    riccatiSolve 0 0 0 1 0 1 = .ok ⟨0, 0, 0, false⟩ ∧
    (⟨0, 0, 0, false⟩ : RiccatiResult).iterations ≤ 0 ∧
    (⟨0, 0, 0, false⟩ : RiccatiResult).P = (riccatiStep 0 0 0 1)^[0] 0 := by
  have h : riccatiSolve 0 0 0 1 0 1 = .ok ⟨0, 0, 0, false⟩ := by
    simp [riccatiSolve, riccatiIter, riccatiStep, det2, inv2, maxAbs3]
  have hthm := riccatiSolve_bounded_and_nonfatal.1 0 0 0 1 0 1 ⟨0, 0, 0, false⟩ h
  exact ⟨h, hthm.1, (hthm.2.2 rfl).2⟩

/-- C2: `computeVelocityCommands` returns `NoPathError` when invoked before
any path has been set, `EmptyPathError` when pruning reduces the path to
nothing, and the solver's `SingularGainError` when the Riccati inner
inverse is singular; and these are the only failures — every failure is an
explicit result value of exactly these kinds (the function is total). -/
theorem computeVelocityCommands_error_model (cfg : Config) (o : Oracles)
    (st : ControllerState) (pose : Pose) (speed : ℚ) :
    (st.plan = none →
      computeVelocityCommands cfg o st pose speed = .error .NoPathError) ∧
    (∀ path, st.plan = some path →
      prunedOf o cfg pose path st.cursor = [] →
      computeVelocityCommands cfg o st pose speed = .error .EmptyPathError) ∧
    (∀ path hd tl, st.plan = some path →
      prunedOf o cfg pose path st.cursor = hd :: tl →
      ∀ e, cycleRiccati cfg o pose speed (hd :: tl) = .error e →
        computeVelocityCommands cfg o st pose speed = .error e ∧
        e = .SingularGainError) ∧
    (∀ e, computeVelocityCommands cfg o st pose speed = .error e →
      (e = .NoPathError ∧ st.plan = none) ∨
      (e = .EmptyPathError ∧ ∃ path, st.plan = some path ∧
        prunedOf o cfg pose path st.cursor = []) ∨
      (e = .SingularGainError ∧ ∃ path hd tl, st.plan = some path ∧
        prunedOf o cfg pose path st.cursor = hd :: tl ∧
        cycleRiccati cfg o pose speed (hd :: tl) = .error .SingularGainError)) := by
  refine ⟨?_, ?_, ?_, ?_⟩
  · intro h
    simp only [computeVelocityCommands, h]
  · intro path hplan hpr
    simp only [computeVelocityCommands, hplan, hpr]
  · intro path hd tl hplan hpr e hric
    have hsing : e = .SingularGainError := by
      rw [cycleRiccati] at hric
      exact riccatiSolve_error _ _ _ _ _ _ e hric
    refine ⟨?_, hsing⟩
    simp only [computeVelocityCommands, hplan, hpr, hric]
  · intro e h
    cases hplan : st.plan with
    | none =>
      simp only [computeVelocityCommands, hplan, Except.error.injEq] at h
      exact Or.inl ⟨h.symm, rfl⟩
    | some path =>
      cases hpr : prunedOf o cfg pose path st.cursor with
      | nil =>
        simp only [computeVelocityCommands, hplan, hpr, Except.error.injEq] at h
        exact Or.inr (Or.inl ⟨h.symm, path, rfl, hpr⟩)
      | cons hd tl =>
        cases hric : cycleRiccati cfg o pose speed (hd :: tl) with
        | error e₂ =>
          have he₂ : e₂ = .SingularGainError := by
            rw [cycleRiccati] at hric
            exact riccatiSolve_error _ _ _ _ _ _ e₂ hric
          simp only [computeVelocityCommands, hplan, hpr, hric, Except.error.injEq] at h
          exact Or.inr (Or.inr ⟨h.symm.trans he₂, path, hd, tl, rfl, hpr, he₂ ▸ hric⟩)
        | ok res =>
          simp only [computeVelocityCommands, hplan, hpr, hric] at h
          exact Except.noConfusion h

/-- Witness for C2: concrete executions hitting each of the three error
kinds. -/
theorem computeVelocityCommands_error_model_witness :
    computeVelocityCommands cfg₀ o₀ initialState ⟨0, 0, 0⟩ 0 = .error .NoPathError ∧
    computeVelocityCommands cfg₀ o₀ ⟨some [], 0, false⟩ ⟨0, 0, 0⟩ 0 =
      .error .EmptyPathError ∧
    computeVelocityCommands cfgSing o₀ ⟨some [⟨1, 0, 0⟩], 0, false⟩ ⟨0, 0, 0⟩ 0 =
      .error .SingularGainError := by
  have hsing : cycleRiccati cfgSing o₀ ⟨0, 0, 0⟩ 0 [⟨1, 0, 0⟩] =
      .error .SingularGainError := by
    simp [cycleRiccati, cfgSing, o₀, riccatiSolve, riccatiIter, det2]
  refine ⟨(computeVelocityCommands_error_model cfg₀ o₀ initialState ⟨0, 0, 0⟩ 0).1 rfl,
    (computeVelocityCommands_error_model cfg₀ o₀ ⟨some [], 0, false⟩ ⟨0, 0, 0⟩ 0).2.1
      [] rfl rfl,
    ((computeVelocityCommands_error_model cfgSing o₀ ⟨some [⟨1, 0, 0⟩], 0, false⟩
      ⟨0, 0, 0⟩ 0).2.2.1 [⟨1, 0, 0⟩] ⟨1, 0, 0⟩ [] rfl rfl
      .SingularGainError hsing).1⟩

lemma computeVelocityCommands_ok_state (cfg : Config) (o : Oracles)
    (st : ControllerState) (pose : Pose) (speed : ℚ) (u : ControlVector)
    (st' : ControllerState)
    (h : computeVelocityCommands cfg o st pose speed = .ok (u, st')) :
    ∃ path hd tl, st.plan = some path ∧
      prunedOf o cfg pose path st.cursor = hd :: tl ∧
      st' = { plan := some path, cursor := pruneCursor o cfg pose path st.cursor,
              goalReached := goalUpdate cfg o pose (List.getLastD tl hd) st.goalReached } := by
  cases hplan : st.plan with
  | none =>
    simp only [computeVelocityCommands, hplan] at h
    exact Except.noConfusion h
  | some path =>
    cases hpr : prunedOf o cfg pose path st.cursor with
    | nil =>
      simp only [computeVelocityCommands, hplan, hpr] at h
      exact Except.noConfusion h
    | cons hd tl =>
      cases hric : cycleRiccati cfg o pose speed (hd :: tl) with
      | error e =>
        simp only [computeVelocityCommands, hplan, hpr, hric] at h
        exact Except.noConfusion h
      | ok res =>
        simp only [computeVelocityCommands, hplan, hpr, hric, Except.ok.injEq,
          Prod.mk.injEq] at h
        exact ⟨path, hd, tl, rfl, hpr, h.2.symm⟩

lemma computeVelocityCommands_keeps_goal (cfg : Config) (o : Oracles)
    (st : ControllerState) (pose : Pose) (speed : ℚ) (u : ControlVector)
    (st' : ControllerState)
    (h : computeVelocityCommands cfg o st pose speed = .ok (u, st'))
    (hg : st.goalReached = true) : st'.goalReached = true := by
  obtain ⟨path, hd, tl, hplan, hpr, hst'⟩ :=
    computeVelocityCommands_ok_state cfg o st pose speed u st' h
  rw [hst']
  simp [goalUpdate, hg]

/-- C5: the goal monitor is latched — a `Reached` state (`goal_reached_ =
true`) is absorbing for `goalUpdate` and for every control cycle and every
run of cycles; the `Tracking → Reached` transition happens exactly when the
distance to the goal and the wrapped heading difference are simultaneously
within their tolerances; and only a (successful, nonempty) `setPlan` resets
the state to `Tracking`. -/
theorem goalMonitor_latched (cfg : Config) (o : Oracles) :
    (∀ pose goal, goalUpdate cfg o pose goal true = true) ∧
    (∀ pose goal, goalUpdate cfg o pose goal false = true ↔
      (o.hyp (goal.x - pose.x) (goal.y - pose.y) < cfg.goal_dist_tol_ ∧
       |wrapAngle cfg.two_pi_ (pose.heading - goal.heading)| < cfg.goal_heading_tol_)) ∧
    (∀ st pose speed u st',
      computeVelocityCommands cfg o st pose speed = .ok (u, st') →
      isGoalReached st = true → isGoalReached st' = true) ∧
    (∀ evs st, isGoalReached st = true →
      isGoalReached (runCycles cfg o evs st) = true) ∧
    (∀ st plan, plan ≠ [] → isGoalReached (setPlan st plan).2 = false) := by
  refine ⟨?_, ?_, ?_, ?_, ?_⟩
  · intro pose goal
    simp [goalUpdate]
  · intro pose goal
    simp [goalUpdate]
  · intro st pose speed u st' h hg
    exact computeVelocityCommands_keeps_goal cfg o st pose speed u st' h hg
  · intro evs
    induction evs with
    | nil =>
      intro st hg
      exact hg
    | cons pv rest ih =>
      intro st hg
      rw [runCycles]
      cases hc : computeVelocityCommands cfg o st pv.1 pv.2 with
      | error e =>
        exact ih st hg
      | ok r =>
        exact ih r.2 (computeVelocityCommands_keeps_goal cfg o st pv.1 pv.2 r.1 r.2
          (by rw [hc]) hg)
  · intro st plan hne
    cases plan with
    | nil => exact absurd rfl hne
    | cons p rest => rfl

/-- Witness for C5: a latched state stays `Reached` across a concrete cycle
run, and a concrete nonempty `setPlan` resets it. -/
theorem goalMonitor_latched_witness :
    goalUpdate cfg₀ o₀ ⟨0, 0, 0⟩ ⟨1, 0, 0⟩ true = true ∧
    isGoalReached (runCycles cfg₀ o₀ [(⟨0, 0, 0⟩, 1)] ⟨some [⟨1, 0, 0⟩], 0, true⟩) = true ∧
    isGoalReached (setPlan ⟨some [⟨1, 0, 0⟩], 0, true⟩ [⟨2, 0, 0⟩]).2 = false := by
  refine ⟨(goalMonitor_latched cfg₀ o₀).1 ⟨0, 0, 0⟩ ⟨1, 0, 0⟩,
    (goalMonitor_latched cfg₀ o₀).2.2.2.1 [(⟨0, 0, 0⟩, 1)] ⟨some [⟨1, 0, 0⟩], 0, true⟩ rfl,
    (goalMonitor_latched cfg₀ o₀).2.2.2.2 ⟨some [⟨1, 0, 0⟩], 0, true⟩ [⟨2, 0, 0⟩]
      (by simp)⟩

/-- C6: `setPlan` with an empty plan fails with `EmptyPathError` and leaves
the controller state (including any previously stored path) exactly as it
was. -/
theorem setPlan_empty_rejected (st : ControllerState) :
    (setPlan st []).1 = .error .EmptyPathError ∧ (setPlan st []).2 = st :=
  ⟨rfl, rfl⟩

/-- C7: for a configuration with nonnegative lookahead time gain and
`minDist ≤ maxDist`, the lookahead distance is
`clamp(lookaheadTimeGain * speed, minDist, maxDist)`, always lies in
`[minDist, maxDist]`, and is monotonically non-decreasing in the speed. -/
theorem getLookAheadDistance_clamp (cfg : Config)
    (hmm : cfg.min_lookahead_dist_ ≤ cfg.max_lookahead_dist_)
    (hg : 0 ≤ cfg.lookahead_time_) :
    (∀ s, getLookAheadDistance cfg s =
      min (max (cfg.lookahead_time_ * s) cfg.min_lookahead_dist_)
        cfg.max_lookahead_dist_) ∧
    (∀ s, cfg.min_lookahead_dist_ ≤ getLookAheadDistance cfg s ∧
      getLookAheadDistance cfg s ≤ cfg.max_lookahead_dist_) ∧
    (∀ s t, s ≤ t → getLookAheadDistance cfg s ≤ getLookAheadDistance cfg t) := by
  refine ⟨fun s => rfl,
    fun s => ⟨le_min (le_max_right _ _) hmm, min_le_right _ _⟩, ?_⟩
  intro s t hst
  exact min_le_min
    (max_le_max (mul_le_mul_of_nonneg_left hst hg) (le_refl _)) (le_refl _)

/-- Witness for C7: the clamp bounds and monotonicity at concrete speeds. -/
theorem getLookAheadDistance_clamp_witness :
    cfg₀.min_lookahead_dist_ ≤ getLookAheadDistance cfg₀ 3 ∧
    getLookAheadDistance cfg₀ 3 ≤ cfg₀.max_lookahead_dist_ ∧
    getLookAheadDistance cfg₀ 0 ≤ getLookAheadDistance cfg₀ 1 := by
  have h := getLookAheadDistance_clamp cfg₀ (le_refl _) zero_le_one
  exact ⟨(h.2.1 3).1, (h.2.1 3).2, h.2.2 0 1 zero_le_one⟩

/-- C9: the control law computes `u = −K·error` with no clamping, so a zero
error state yields exactly the zero control vector, for every (finite,
i.e. rational-valued) gain matrix `K`. -/
theorem controlLaw_equilibrium :
    (∀ (K : M23) (e : Fin 3 → ℚ), controlLaw K e = -(K.mulVec e)) ∧
    (∀ K : M23, controlLaw K 0 = 0) := by
  refine ⟨fun K e => rfl, fun K => ?_⟩
  simp [controlLaw]

/-- C10: the lookahead-point search returns a `PointStamped`, a value fully
determined by its stamp, frame id and 3-D position — it carries no
heading/orientation component (so the reference heading used downstream
cannot come from the lookahead point itself); in particular two lookahead
results with the same position are equal. -/
theorem getLookAheadPoint_position_only :
    (∀ p q : PointStamped, p.stamp = q.stamp → p.frame = q.frame →
      p.point = q.point → p = q) ∧
    (∀ (o : Oracles) (d : ℚ) (robot : Pose) (plan : List Pose)
       (o₂ : Oracles) (d₂ : ℚ) (robot₂ : Pose) (plan₂ : List Pose),
      (getLookAheadPoint o d robot plan).point =
        (getLookAheadPoint o₂ d₂ robot₂ plan₂).point →
      getLookAheadPoint o d robot plan = getLookAheadPoint o₂ d₂ robot₂ plan₂) := by
  have hext : ∀ p q : PointStamped, p.stamp = q.stamp → p.frame = q.frame →
      p.point = q.point → p = q := by
    intro p q h1 h2 h3
    cases p; cases q
    cases h1; cases h2; cases h3
    rfl
  exact ⟨hext,
    fun o d robot plan o₂ d₂ robot₂ plan₂ hpt => hext _ _ rfl rfl hpt⟩

/-- Witness for C10: a concrete lookahead result is exactly its stamped
position, with no further components. -/
theorem getLookAheadPoint_position_only_witness :
    getLookAheadPoint o₀ 2 ⟨0, 0, 5⟩ [⟨1, 0, 9⟩] =
      ⟨0, "map", ⟨1, 0, 0⟩⟩ :=
  (getLookAheadPoint_position_only).1 _ _ rfl rfl (by with_unfolding_all rfl)

lemma pruneAdvance_lt (o : Oracles) (cfg : Config) (pose : Pose) :
    ∀ l : List Pose, l ≠ [] → pruneAdvance o cfg pose l < l.length := by
  intro l
  induction l with
  | nil =>
    intro h
    exact absurd rfl h
  | cons p rest ih =>
    intro _
    cases rest with
    | nil => simp [pruneAdvance]
    | cons q rest2 =>
      rw [pruneAdvance]
      by_cases hd : shouldDrop o cfg pose p q
      · rw [if_pos hd]
        exact Nat.succ_lt_succ (ih (by simp))
      · rw [if_neg hd]
        simp

lemma pruneCursor_lt (o : Oracles) (cfg : Config) (pose : Pose) (path : List Pose)
    (c : ℕ) (h : c < path.length) : pruneCursor o cfg pose path c < path.length := by
  have hne : path.drop c ≠ [] := by
    apply List.ne_nil_of_length_pos
    rw [List.length_drop]
    omega
  have hlt := pruneAdvance_lt o cfg pose (path.drop c) hne
  rw [List.length_drop] at hlt
  rw [pruneCursor]
  omega

lemma getLast_mem_drop : ∀ (l : List Pose) (k : ℕ), k < l.length →
    ∀ hne : l ≠ [], l.getLast hne ∈ l.drop k := by
  intro l
  induction l with
  | nil =>
    intro k h hne
    exact absurd rfl hne
  | cons a t ih =>
    intro k h hne
    cases k with
    | zero => exact List.getLast_mem hne
    | succ k =>
      cases t with
      | nil => exact absurd h (by simp)
      | cons b t2 =>
        have hlt : k < (b :: t2).length := by
          simp only [List.length_cons] at h ⊢
          omega
        have hne2 : (b :: t2) ≠ [] := by simp
        rw [List.getLast_cons hne2]
        exact ih k hlt hne2

/-- C4: against a fixed stored path, the pruned result is always the suffix
of the path starting at the advanced cursor, the cursor never decreases
(for a single call and along any sequence of calls, so the number of
remaining waypoints never increases), the advanced cursor stays inside the
path, and the final waypoint is never removed. -/
theorem prune_suffix_monotone (o : Oracles) (cfg : Config) (path : List Pose) :
    (∀ pose c, c ≤ pruneCursor o cfg pose path c) ∧
    (∀ pose c, prunedOf o cfg pose path c <:+ path) ∧
    (∀ pose c, c < path.length → pruneCursor o cfg pose path c < path.length) ∧
    (∀ pose c, c < path.length → ∀ hne : path ≠ [],
      path.getLast hne ∈ prunedOf o cfg pose path c) ∧
    (∀ c (poses : List Pose),
      c ≤ poses.foldl (fun k p => pruneCursor o cfg p path k) c) ∧
    (∀ pose pose₂ c,
      (prunedOf o cfg pose₂ path (pruneCursor o cfg pose path c)).length ≤
        (prunedOf o cfg pose path c).length) := by
  refine ⟨fun pose c => Nat.le_add_right c _, fun pose c => List.drop_suffix _ _,
    fun pose c h => pruneCursor_lt o cfg pose path c h,
    fun pose c h hne => getLast_mem_drop path _ (pruneCursor_lt o cfg pose path c h) hne,
    ?_, ?_⟩
  · intro c poses
    induction poses generalizing c with
    | nil => exact le_refl c
    | cons p rest ih =>
      rw [List.foldl_cons]
      exact le_trans (Nat.le_add_right c _) (ih (pruneCursor o cfg p path c))
  · intro pose pose₂ c
    rw [prunedOf, prunedOf, List.length_drop, List.length_drop]
    have h := Nat.le_add_right (pruneCursor o cfg pose path c)
      (pruneAdvance o cfg pose₂ (path.drop (pruneCursor o cfg pose path c)))
    rw [show pruneCursor o cfg pose path c +
        pruneAdvance o cfg pose₂ (path.drop (pruneCursor o cfg pose path c)) =
        pruneCursor o cfg pose₂ path (pruneCursor o cfg pose path c) from rfl] at h
    omega

/-- Witness for C4: on a concrete two-waypoint path the pruned result keeps
the final waypoint, and the cursor does not move backward. -/
theorem prune_suffix_monotone_witness :
    ([⟨0, 0, 0⟩, ⟨1, 0, 0⟩] : List Pose).getLast (by simp) ∈
      prunedOf o₀ cfg₀ ⟨0, 0, 0⟩ [⟨0, 0, 0⟩, ⟨1, 0, 0⟩] 0 ∧
    0 ≤ pruneCursor o₀ cfg₀ ⟨0, 0, 0⟩ [⟨0, 0, 0⟩, ⟨1, 0, 0⟩] 0 :=
  ⟨(prune_suffix_monotone o₀ cfg₀ [⟨0, 0, 0⟩, ⟨1, 0, 0⟩]).2.2.2.1 ⟨0, 0, 0⟩ 0
      (by simp) (by simp),
    (prune_suffix_monotone o₀ cfg₀ [⟨0, 0, 0⟩, ⟨1, 0, 0⟩]).1 ⟨0, 0, 0⟩ 0⟩

lemma polyLen_nonneg (hyp : ℚ → ℚ → ℚ) (hnn : ∀ a b, 0 ≤ hyp a b) :
    ∀ (pts : List Pt) (start : Pt), 0 ≤ polyLen hyp start pts := by
  intro pts
  induction pts with
  | nil =>
    intro start
    exact le_rfl
  | cons p rest ih =>
    intro start
    rw [polyLen]
    exact add_nonneg (hnn _ _) (ih p)

lemma walkPath_mem (hyp : ℚ → ℚ → ℚ) (hnn : ∀ a b, 0 ≤ hyp a b) :
    ∀ (pts : List Pt) (d : ℚ) (start : Pt), pts ≠ [] → 0 ≤ d →
      d ≤ polyLen hyp start pts →
      ∃ pre v rest t, pts = pre ++ v :: rest ∧ 0 ≤ t ∧ t ≤ 1 ∧
        (pre = [] ∨ polyLen hyp start pre < d) ∧
        walkPath hyp d start pts = interp (lastPt start pre) v t ∧
        polyLen hyp start pre +
          t * hyp (v.x - (lastPt start pre).x) (v.y - (lastPt start pre).y) = d := by
  intro pts
  induction pts with
  | nil =>
    intro d start hne _ _
    exact absurd rfl hne
  | cons v rest ih =>
    intro d start _ hd0 hdL
    by_cases hcross : d ≤ hyp (v.x - start.x) (v.y - start.y)
    · refine ⟨[], v, rest, d / hyp (v.x - start.x) (v.y - start.y), rfl,
        div_nonneg hd0 (hnn _ _), ?_, Or.inl rfl, ?_, ?_⟩
      · rcases (hnn (v.x - start.x) (v.y - start.y)).eq_or_lt with hL | hL
        · rw [← hL]
          simp
        · exact (div_le_one hL).mpr hcross
      · rw [walkPath, if_pos hcross]
        rfl
      · rw [show lastPt start ([] : List Pt) = start from rfl]
        rcases (hnn (v.x - start.x) (v.y - start.y)).eq_or_lt with hL | hL
        · have hd : d = 0 := le_antisymm (hcross.trans (le_of_eq hL.symm)) hd0
          rw [hd, ← hL]
          simp [polyLen]
        · have hLne : hyp (v.x - start.x) (v.y - start.y) ≠ 0 := ne_of_gt hL
          rw [show polyLen hyp start ([] : List Pt) = 0 from rfl, zero_add,
            div_mul_cancel₀ _ hLne]
    · push_neg at hcross
      have hrest : rest ≠ [] := by
        intro hr
        rw [hr, polyLen] at hdL
        simp only [polyLen, add_zero] at hdL
        exact absurd hdL (not_le.mpr hcross)
      have hd0' : 0 ≤ d - hyp (v.x - start.x) (v.y - start.y) := by linarith
      have hdL' : d - hyp (v.x - start.x) (v.y - start.y) ≤ polyLen hyp v rest := by
        rw [polyLen] at hdL
        linarith
      obtain ⟨pre, v', rest', t, hsplit, ht0, ht1, hfirst, hwalk, heq⟩ :=
        ih (d - hyp (v.x - start.x) (v.y - start.y)) v hrest hd0' hdL'
      refine ⟨v :: pre, v', rest', t, by rw [List.cons_append, hsplit], ht0, ht1,
        Or.inr ?_, ?_, ?_⟩
      · rw [polyLen]
        rcases hfirst with h | h
        · rw [h]
          simp only [polyLen, add_zero]
          exact hcross
        · linarith
      · rw [walkPath, if_neg (not_le.mpr hcross)]
        exact hwalk
      · show polyLen hyp start (v :: pre) +
            t * hyp (v'.x - (lastPt v pre).x) (v'.y - (lastPt v pre).y) = d
        rw [polyLen]
        linarith

lemma walkPath_beyond (hyp : ℚ → ℚ → ℚ) (hnn : ∀ a b, 0 ≤ hyp a b) :
    ∀ (pts : List Pt) (d : ℚ) (start : Pt), pts ≠ [] →
      polyLen hyp start pts < d →
      walkPath hyp d start pts = pts.getLastD start := by
  intro pts
  induction pts with
  | nil =>
    intro d start hne _
    exact absurd rfl hne
  | cons v rest ih =>
    intro d start _ hL
    have hs : hyp (v.x - start.x) (v.y - start.y) < d := by
      rw [polyLen] at hL
      have := polyLen_nonneg hyp hnn rest v
      linarith
    rw [walkPath, if_neg (not_le.mpr hs)]
    cases rest with
    | nil => simp [walkPath, List.getLastD]
    | cons w rest2 =>
      have hne2 : (w :: rest2) ≠ [] := by simp
      have hL2 : polyLen hyp v (w :: rest2) <
          d - hyp (v.x - start.x) (v.y - start.y) := by
        rw [polyLen] at hL
        linarith
      rw [ih (d - hyp (v.x - start.x) (v.y - start.y)) v hne2 hL2]
      exact (List.getLastD_cons start v (w :: rest2)).symm

/-- C3: for a nonnegative target distance `d` and a nonempty pruned plan,
the lookahead point is the arc-length walk from the agent's position: it
returns the stamped position of `walkPath`; when `d ≤ L` (the total
remaining length) the returned point is the linear interpolation, with a
fraction in `[0, 1]`, on the first segment at which the accumulated
straight-line length reaches `d` — so its arc-distance from the start is
exactly `d` (prefix length plus fraction times segment length); and when
`d > L` it is exactly the plan's final waypoint. -/
theorem getLookAheadPoint_arc (o : Oracles) (d : ℚ) (robot : Pose)
    (plan : List Pose) (hplan : plan ≠ []) (hd0 : 0 ≤ d)
    (hnn : ∀ a b, 0 ≤ o.hyp a b) :
    ((getLookAheadPoint o d robot plan).point =
      ⟨(walkPath o.hyp d ⟨robot.x, robot.y⟩ (plan.map ptOfPose)).x,
       (walkPath o.hyp d ⟨robot.x, robot.y⟩ (plan.map ptOfPose)).y, 0⟩) ∧
    (d ≤ polyLen o.hyp ⟨robot.x, robot.y⟩ (plan.map ptOfPose) →
      ∃ pre v rest t, plan.map ptOfPose = pre ++ v :: rest ∧ 0 ≤ t ∧ t ≤ 1 ∧
        (pre = [] ∨ polyLen o.hyp ⟨robot.x, robot.y⟩ pre < d) ∧
        walkPath o.hyp d ⟨robot.x, robot.y⟩ (plan.map ptOfPose) =
          interp (lastPt ⟨robot.x, robot.y⟩ pre) v t ∧
        polyLen o.hyp ⟨robot.x, robot.y⟩ pre +
          t * o.hyp (v.x - (lastPt ⟨robot.x, robot.y⟩ pre).x)
            (v.y - (lastPt ⟨robot.x, robot.y⟩ pre).y) = d) ∧
    (polyLen o.hyp ⟨robot.x, robot.y⟩ (plan.map ptOfPose) < d →
      walkPath o.hyp d ⟨robot.x, robot.y⟩ (plan.map ptOfPose) =
        (plan.map ptOfPose).getLastD ⟨robot.x, robot.y⟩) := by
  have hmapne : plan.map ptOfPose ≠ [] := by
    cases plan with
    | nil => exact absurd rfl hplan
    | cons a l => simp
  exact ⟨rfl, fun hle => walkPath_mem o.hyp hnn _ d _ hmapne hd0 hle,
    fun hgt => walkPath_beyond o.hyp hnn _ d _ hmapne hgt⟩

/-- Witness for C3: on a concrete two-waypoint plan of total length `2`
with target distance `5 > 2`, the walk returns exactly the final
waypoint. -/
theorem getLookAheadPoint_arc_witness :
    walkPath o₀.hyp 5 ⟨0, 0⟩ (([⟨1, 0, 0⟩, ⟨2, 0, 0⟩] : List Pose).map ptOfPose) =
      (([⟨1, 0, 0⟩, ⟨2, 0, 0⟩] : List Pose).map ptOfPose).getLastD ⟨0, 0⟩ :=
  (getLookAheadPoint_arc o₀ 5 ⟨0, 0, 0⟩ [⟨1, 0, 0⟩, ⟨2, 0, 0⟩] (by simp)
    (by decide) (fun a b => add_nonneg (mul_self_nonneg a) (mul_self_nonneg b))).2.2
    (by with_unfolding_all decide)

end LQR
